import Mathlib

/-!
# Verification of `FieldStringBytes.h` (EmbeddedProto bounded string/bytes field)

Shallow embedding of `src/src/FieldStringBytes.h`: the fixed-capacity
length-delimited protobuf field `FieldStringBytes<MAX_LENGTH, DATA_TYPE>`
together with the `FieldString` c-string specialization.

The field state is a logical length plus a storage list of `MAX_LENGTH`
byte values.  The output transport (`WriteBufferInterface`) is a byte list
with a maximum size; the input transport (`ReadBufferInterface`) is a byte
list consumed from the front.  The varint/tag codec (`WireFormatter`) is an
external collaborator of this header and is modelled from the spec.
-/

/-- The `Error` enumeration used by every fallible operation
(`Errors.h` collaborator, values taken from the spec's error kinds). -/
inductive Error where
  | NO_ERRORS
  | END_OF_BUFFER
  | BUFFER_FULL
  | ARRAY_FULL
  | INVALID_WIRETYPE
  | INDEX_OUT_OF_BOUND
deriving DecidableEq, Repr

/-- Protobuf wire types (`WireFormatter::WireType`), with their wire codes. -/
inductive WireType where
  | VARINT
  | FIXED64
  | LENGTH_DELIMITED
  | FIXED32
deriving DecidableEq, Repr

/-- Modelled from the spec: the output transport contract
(`WriteBufferInterface`): a byte sink with a fixed maximum size, supporting
`push(bytes, length)` and `get_available_size()`. -/
structure WriteBuffer where
  max_size : Nat
  bytes : List Nat
deriving DecidableEq, Repr

/-- `WriteBufferInterface::get_available_size()`: remaining room. -/
def WriteBuffer.get_available_size (wb : WriteBuffer) : Nat :=
  wb.max_size - wb.bytes.length

/-- `WriteBufferInterface::push(bytes, length)`: appends the payload if it
fits, otherwise fails leaving the buffer unchanged (`none`). -/
def WriteBuffer.push (wb : WriteBuffer) (payload : List Nat) : Option WriteBuffer :=
  if wb.bytes.length + payload.length ≤ wb.max_size then
    some ⟨wb.max_size, wb.bytes ++ payload⟩
  else
    none

/-- Modelled from the spec: the byte sequence produced by protobuf varint
encoding of `n` (`WireFormatter::SerializeVarint`'s byte stream), written
with a fuel argument so that it is structurally recursive; `fuel = n`
always suffices because the value shrinks by a factor 128 each step. -/
def serializeVarintAux : Nat → Nat → List Nat
  | 0, n => [n % 128]
  | fuel + 1, n =>
    if n < 128 then [n] else (n % 128 + 128) :: serializeVarintAux fuel (n / 128)

/-- Modelled from the spec: protobuf varint encoding of `n`. -/
def serializeVarintBytes (n : Nat) : List Nat :=
  serializeVarintAux n n

/-- Modelled from the spec: `WireFormatter::SerializeVarint(value, buffer)`:
push the varint bytes, `BUFFER_FULL` if the transport rejects them. -/
def serializeVarint (value : Nat) (wb : WriteBuffer) : Error × WriteBuffer :=
  match wb.push (serializeVarintBytes value) with
  | some wb2 => (Error.NO_ERRORS, wb2)
  | none => (Error.BUFFER_FULL, wb)

/-- Modelled from the spec: protobuf varint decoding from the front of a
byte list; returns the decoded value and the remaining bytes, or `none`
when the input is exhausted before a terminating byte. -/
def deserializeVarintBytes : List Nat → Option (Nat × List Nat)
  | [] => none
  | b :: rest =>
    if b < 128 then some (b, rest)
    else
      match deserializeVarintBytes rest with
      | some (v, rest2) => some (b % 128 + 128 * v, rest2)
      | none => none

/-- Modelled from the spec: `WireFormatter::DeserializeVarint(buffer, value)`:
reads a varint from the input transport; on exhaustion every remaining byte
has been popped and `END_OF_BUFFER` is returned. -/
def deserializeVarint (rb : List Nat) : Error × Nat × List Nat :=
  match deserializeVarintBytes rb with
  | some (v, rest) => (Error.NO_ERRORS, v, rest)
  | none => (Error.END_OF_BUFFER, 0, [])

/-- The numeric wire code of each wire type (protobuf standard). -/
def wireTypeCode : WireType → Nat
  | WireType.VARINT => 0
  | WireType.FIXED64 => 1
  | WireType.LENGTH_DELIMITED => 2
  | WireType.FIXED32 => 5

/-- Modelled from the spec: `WireFormatter::MakeTag(field_number, wire_type)`
`= (field_number << 3) | code`, in `uint32` arithmetic.  The shifted field
number has zero low bits, so the bitwise or is an addition. -/
def makeTag (field_number : Nat) (wt : WireType) : Nat :=
  (field_number * 8) % 2 ^ 32 + wireTypeCode wt

/-- State of a `FieldStringBytes<MAX_LENGTH, DATA_TYPE>` object:
`current_length_` and the storage array `data_` (a list of `MAX_LENGTH`
byte values; `uint8_t` and `char` elements are both modelled as their byte
value). -/
structure FieldState where
  current_length : Nat
  data : List Nat
deriving DecidableEq, Repr

/-- `FieldStringBytes::clear()`: `data_.fill(0); current_length_ = 0;`.
Filling replaces every element, so the storage keeps its size. -/
def FieldState.clear (s : FieldState) : FieldState :=
  ⟨0, List.replicate s.data.length 0⟩

/-- A default-constructed field of capacity `C`: zero length, zeroed
storage (`data_ = {{0}}`). -/
def freshField (C : Nat) : FieldState :=
  ⟨0, List.replicate C 0⟩

/-- `FieldStringBytes::get(index)` (the unchecked mutable accessor) for
capacity `C`: clamps the index to `C - 1`, grows `current_length_` to the
clamped index plus one when the clamped index is not below it, and hands
out a reference to `data_[limited_index]`.  Returns the updated state and
the clamped index that the reference designates. -/
def FieldState.get (C : Nat) (s : FieldState) (index : Nat) : FieldState × Nat :=
  let limited_index := min index (C - 1)
  if limited_index ≥ s.current_length then
    (⟨limited_index + 1, s.data⟩, limited_index)
  else
    (s, limited_index)

/-- `FieldStringBytes::get_const(index)` (unchecked read) for capacity `C`:
clamps the index to `C - 1` and reads that element. -/
def FieldState.get_const (C : Nat) (s : FieldState) (index : Nat) : Nat :=
  (s.data.getD (min index (C - 1)) 0)

/-- `FieldStringBytes::get_const(index, value)` (checked read): fails with
`INDEX_OUT_OF_BOUND` at or beyond the logical length; on success returns
the element written into `value`. -/
def FieldState.get_const_checked (s : FieldState) (index : Nat) : Error × Option Nat :=
  if index < s.current_length then
    (Error.NO_ERRORS, some (s.data.getD index 0))
  else
    (Error.INDEX_OUT_OF_BOUND, none)

/-- `memcpy(dst, src, n)` on list-modelled storage: the first `n` elements
come from `src`, the rest of `dst` is untouched. -/
def memcpyList (dst src : List Nat) (n : Nat) : List Nat :=
  src.take n ++ dst.drop n

/-- `FieldStringBytes::set(data, length)` for capacity `M`: `ARRAY_FULL`
when `length` exceeds `MAX_LENGTH`, otherwise sets `current_length_` and
copies exactly `length` elements. -/
def FieldState.set (M : Nat) (s : FieldState) (src : List Nat) (length : Nat) :
    Error × FieldState :=
  if M ≥ length then
    (Error.NO_ERRORS, ⟨length, memcpyList s.data src length⟩)
  else
    (Error.ARRAY_FULL, s)

/-- `FieldStringBytes::set(rhs)` (cross-capacity field assignment):
forwards to `set(rhs.get_const(), rhs.get_length())`. -/
def FieldState.setField (M : Nat) (s : FieldState) (rhs : FieldState) :
    Error × FieldState :=
  s.set M rhs.data rhs.current_length

/-- `FieldStringBytes::set_length(length)` (protected): clamps to
`MAX_LENGTH`. -/
def FieldState.set_length (M : Nat) (s : FieldState) (length : Nat) : FieldState :=
  ⟨min length M, s.data⟩

/-- `FieldStringBytes::serialize(buffer)`: pushes the first
`current_length_` stored bytes; `BUFFER_FULL` if the transport rejects the
push.  The method is `const`: the returned field state is the receiver. -/
def FieldState.serialize (s : FieldState) (wb : WriteBuffer) :
    Error × WriteBuffer × FieldState :=
  match wb.push (s.data.take s.current_length) with
  | some wb2 => (Error.NO_ERRORS, wb2, s)
  | none => (Error.BUFFER_FULL, wb, s)

/-- `FieldStringBytes::serialize_with_id(field_number, buffer, optional)`:
emits only when `0 < current_length_ || optional`; first checks
`current_length_ <= buffer.get_available_size()` (payload size only) and
returns `BUFFER_FULL` without writing when it fails; otherwise writes the
tag varint, the length varint, and — only when `0 < current_length_` — the
payload via `serialize`, short-circuiting on the first sub-step failure.
The method is `const`: the returned field state is the receiver. -/
def FieldState.serialize_with_id (s : FieldState) (field_number : Nat)
    (wb : WriteBuffer) (optional : Bool) : Error × WriteBuffer × FieldState :=
  if 0 < s.current_length ∨ optional = true then
    let n_bytes_available := wb.get_available_size
    if s.current_length ≤ n_bytes_available then
      let tag := makeTag field_number WireType.LENGTH_DELIMITED
      let r1 := serializeVarint tag wb
      let r2 := if r1.1 = Error.NO_ERRORS then serializeVarint s.current_length r1.2 else r1
      if r2.1 = Error.NO_ERRORS ∧ 0 < s.current_length then
        s.serialize r2.2
      else
        (r2.1, r2.2, s)
    else
      (Error.BUFFER_FULL, wb, s)
  else
    (Error.NO_ERRORS, wb, s)

/-- The `while((current_length_ < availiable) && buffer.pop(byte))` loop of
`FieldStringBytes::deserialize`: appends popped bytes at
`data_[current_length_]` until the target length is reached or the input
is exhausted; returns the final state and the unread rest of the input. -/
def readLoop (target : Nat) : List Nat → FieldState → FieldState × List Nat
  | [], s => (s, [])
  | b :: rest, s =>
    if s.current_length < target then
      readLoop target rest ⟨s.current_length + 1, s.data.set s.current_length b⟩
    else
      (s, b :: rest)

/-- `FieldStringBytes::deserialize(buffer)` for capacity `M`: reads a
length varint; `ARRAY_FULL` when it exceeds `MAX_LENGTH` (content
untouched); otherwise `clear()` then the read loop; `END_OF_BUFFER` when
the loop stopped short of the target length. -/
def FieldState.deserialize (M : Nat) (s : FieldState) (rb : List Nat) :
    Error × FieldState × List Nat :=
  let r := deserializeVarint rb
  if r.1 = Error.NO_ERRORS then
    let availiable := r.2.1
    if M ≥ availiable then
      let res := readLoop availiable r.2.2 s.clear
      if res.1.current_length = availiable then (Error.NO_ERRORS, res.1, res.2)
      else (Error.END_OF_BUFFER, res.1, res.2)
    else
      (Error.ARRAY_FULL, s, r.2.2)
  else
    (r.1, s, r.2.2)

/-- `FieldStringBytes::deserialize_check_type(buffer, wire_type)`:
`INVALID_WIRETYPE` unless the wire type is `LENGTH_DELIMITED`, else
delegates to `deserialize`. -/
def FieldState.deserialize_check_type (M : Nat) (s : FieldState) (rb : List Nat)
    (wire_type : WireType) : Error × FieldState × List Nat :=
  if WireType.LENGTH_DELIMITED = wire_type then
    s.deserialize M rb
  else
    (Error.INVALID_WIRETYPE, s, rb)

/-- `strncpy(dst, src, n)` on list-modelled storage, where `src` is the
character list of a c-string (its terminator sits right after the list):
copies up to `n` characters, zero-fills up to `n` when the source is
shorter, and leaves `dst` beyond position `n` untouched. -/
def strncpyList (dst src : List Nat) (n : Nat) : List Nat :=
  (src.take n ++ List.replicate (n - src.length) 0) ++ dst.drop n

/-- `FieldString::set(const char* str)` for capacity `M`.  The c-string is
`none` for a null pointer, otherwise the list of its characters before the
terminator (so `strlen` is the list length).  A null pointer clears the
field; otherwise `set_length(strlen(str))`, then one extra character for
the terminator only when the clamped length is below `MAX_LENGTH`, then
`strncpy` into the storage. -/
def FieldString.setCString (M : Nat) (s : FieldState) (str : Option (List Nat)) :
    FieldState :=
  match str with
  | some cs =>
    let str_length := cs.length
    let s1 := s.set_length M str_length
    let this_length := s1.current_length
    let this_length2 := if M > this_length then this_length + 1 else this_length
    ⟨s1.current_length, strncpyList s1.data cs this_length2⟩
  | none => s.clear

/-- Repeated unchecked mutable access on a freshly cleared field of
capacity `C`: `getsUpTo C k` is the state after calling `get` at indices
`0, 1, ..., k` in increasing order. -/
def getsUpTo (C : Nat) : Nat → FieldState
  | 0 => (FieldState.get C (freshField C) 0).1
  | k + 1 => (FieldState.get C (getsUpTo C k) (k + 1)).1

/-- The data-model invariant of a field of capacity `M`:
`0 ≤ current_length ≤ capacity` (the lower bound is inherent to `Nat`)
and the storage holds exactly `capacity` elements. -/
def FieldInv (M : Nat) (s : FieldState) : Prop :=
  s.current_length ≤ M ∧ s.data.length = M

/-! ## Varint codec lemmas -/

theorem deserialize_serializeVarintAux (fuel : Nat) :
    ∀ n rest, n ≤ fuel →
      deserializeVarintBytes (serializeVarintAux fuel n ++ rest) = some (n, rest) := by
  induction fuel with
  | zero =>
    intro n rest hn
    interval_cases n
    simp [serializeVarintAux, deserializeVarintBytes]
  | succ k ih =>
    intro n rest hn
    by_cases h : n < 128
    · simp [serializeVarintAux, deserializeVarintBytes, h]
    · have hrec := ih (n / 128) rest (by omega)
      simp only [serializeVarintAux, if_neg h, List.cons_append, deserializeVarintBytes]
      rw [if_neg (by omega), hrec]
      have : (n % 128 + 128) % 128 = n % 128 := by omega
      rw [this]
      show some (n % 128 + 128 * (n / 128), rest) = some (n, rest)
      rw [Nat.mod_add_div]

theorem varint_roundtrip (n : Nat) (rest : List Nat) :
    deserializeVarintBytes (serializeVarintBytes n ++ rest) = some (n, rest) :=
  deserialize_serializeVarintAux n n rest (le_refl n)

theorem serializeVarintBytes_ne_nil (n : Nat) : serializeVarintBytes n ≠ [] := by
  cases n with
  | zero => simp [serializeVarintBytes, serializeVarintAux]
  | succ k =>
    simp only [serializeVarintBytes, serializeVarintAux]
    split <;> simp

/-! ## Read-loop lemmas -/

theorem set_append_length (pre rest0 : List Nat) (b : Nat) :
    (pre ++ rest0).set pre.length b = pre ++ rest0.set 0 b := by
  induction pre with
  | nil => simp
  | cons x l ih => simp [ih]

theorem readLoop_run (target : Nat) :
    ∀ (bs extra pre rest0 : List Nat), bs.length ≤ rest0.length →
      pre.length + bs.length = target →
      readLoop target (bs ++ extra) ⟨pre.length, pre ++ rest0⟩ =
        (⟨target, (pre ++ bs) ++ rest0.drop bs.length⟩, extra) := by
  intro bs
  induction bs with
  | nil =>
    intro extra pre rest0 hlen htarget
    simp only [List.length_nil, Nat.add_zero] at htarget
    cases extra with
    | nil => simp [readLoop, htarget]
    | cons e extra2 => simp [readLoop, htarget]
  | cons b bs ih =>
    intro extra pre rest0 hlen htarget
    cases rest0 with
    | nil => simp at hlen
    | cons r rest0 =>
      simp only [List.length_cons] at hlen htarget
      have hcond : pre.length < target := by omega
      simp only [List.cons_append, readLoop, if_pos hcond]
      rw [set_append_length]
      have hset : (r :: rest0).set 0 b = b :: rest0 := rfl
      rw [hset]
      have hpre : pre ++ b :: rest0 = (pre ++ [b]) ++ rest0 := by simp
      have hlen2 : pre.length + 1 = (pre ++ [b]).length := by simp
      rw [hpre, hlen2]
      simp only [List.append_eq]
      rw [ih extra (pre ++ [b]) rest0 (by omega) (by simp; omega)]
      simp

theorem readLoop_short (target : Nat) :
    ∀ (bs pre rest0 : List Nat), bs.length ≤ rest0.length →
      pre.length + bs.length < target →
      readLoop target bs ⟨pre.length, pre ++ rest0⟩ =
        (⟨pre.length + bs.length, (pre ++ bs) ++ rest0.drop bs.length⟩, []) := by
  intro bs
  induction bs with
  | nil =>
    intro pre rest0 hlen htarget
    simp [readLoop]
  | cons b bs ih =>
    intro pre rest0 hlen htarget
    cases rest0 with
    | nil => simp at hlen
    | cons r rest0 =>
      simp only [List.length_cons] at hlen htarget
      have hcond : pre.length < target := by omega
      simp only [readLoop, if_pos hcond]
      rw [set_append_length]
      have hset : (r :: rest0).set 0 b = b :: rest0 := rfl
      rw [hset]
      have hpre : pre ++ b :: rest0 = (pre ++ [b]) ++ rest0 := by simp
      have hlen2 : pre.length + 1 = (pre ++ [b]).length := by simp
      rw [hpre, hlen2, ih (pre ++ [b]) rest0 (by omega) (by simp; omega)]
      simp
      omega

theorem readLoop_preserves (target : Nat) :
    ∀ (rb : List Nat) (s : FieldState),
      (readLoop target rb s).1.data.length = s.data.length ∧
      (readLoop target rb s).1.current_length ≤ max s.current_length target := by
  intro rb
  induction rb with
  | nil => intro s; simp [readLoop]
  | cons b rest ih =>
    intro s
    by_cases h : s.current_length < target
    · simp only [readLoop, if_pos h]
      have := ih ⟨s.current_length + 1, s.data.set s.current_length b⟩
      simp only [List.length_set] at this
      exact ⟨this.1, by omega⟩
    · simp [readLoop, if_neg h]

/-! ## Write-path helper lemmas -/

theorem serializeVarintBytes_length_pos (n : Nat) :
    1 ≤ (serializeVarintBytes n).length :=
  List.length_pos.mpr (serializeVarintBytes_ne_nil n)

theorem serializeVarint_ok (v : Nat) (wb : WriteBuffer)
    (h : wb.bytes.length + (serializeVarintBytes v).length ≤ wb.max_size) :
    serializeVarint v wb =
      (Error.NO_ERRORS, ⟨wb.max_size, wb.bytes ++ serializeVarintBytes v⟩) := by
  simp [serializeVarint, WriteBuffer.push, if_pos h]

theorem serialize_push_ok (s : FieldState) (wb : WriteBuffer)
    (h : wb.bytes.length + (s.data.take s.current_length).length ≤ wb.max_size) :
    s.serialize wb =
      (Error.NO_ERRORS, ⟨wb.max_size, wb.bytes ++ s.data.take s.current_length⟩, s) := by
  simp only [List.length_take] at h
  simp [FieldState.serialize, WriteBuffer.push, List.length_take, if_pos h]

theorem serialize_with_id_writes (s : FieldState) (field_number : Nat) (wb : WriteBuffer)
    (hroom : (serializeVarintBytes (makeTag field_number WireType.LENGTH_DELIMITED)).length +
        (serializeVarintBytes s.current_length).length +
        s.current_length ≤ wb.get_available_size) :
    s.serialize_with_id field_number wb true =
      (Error.NO_ERRORS,
       ⟨wb.max_size,
        wb.bytes ++ serializeVarintBytes (makeTag field_number WireType.LENGTH_DELIMITED)
          ++ serializeVarintBytes s.current_length ++ s.data.take s.current_length⟩,
       s) := by
  have htag := serializeVarintBytes_length_pos (makeTag field_number WireType.LENGTH_DELIMITED)
  have hlen := serializeVarintBytes_length_pos s.current_length
  have htake := List.length_take s.current_length s.data
  simp only [WriteBuffer.get_available_size, List.length_take] at hroom
  have havail : s.current_length ≤ wb.get_available_size := by
    simp only [WriteBuffer.get_available_size]
    omega
  have e1 : serializeVarint (makeTag field_number WireType.LENGTH_DELIMITED) wb =
      (Error.NO_ERRORS,
       ⟨wb.max_size,
        wb.bytes ++ serializeVarintBytes (makeTag field_number WireType.LENGTH_DELIMITED)⟩) :=
    serializeVarint_ok _ _ (by omega)
  have e2 : serializeVarint s.current_length
      ⟨wb.max_size,
       wb.bytes ++ serializeVarintBytes (makeTag field_number WireType.LENGTH_DELIMITED)⟩ =
      (Error.NO_ERRORS,
       ⟨wb.max_size,
        wb.bytes ++ (serializeVarintBytes (makeTag field_number WireType.LENGTH_DELIMITED)
          ++ serializeVarintBytes s.current_length)⟩) := by
    rw [serializeVarint_ok _ _ (by simp only [List.length_append]; omega)]
    simp
  have e3 : s.serialize
      ⟨wb.max_size,
       wb.bytes ++ (serializeVarintBytes (makeTag field_number WireType.LENGTH_DELIMITED)
         ++ serializeVarintBytes s.current_length)⟩ =
      (Error.NO_ERRORS,
       ⟨wb.max_size,
        wb.bytes ++ (serializeVarintBytes (makeTag field_number WireType.LENGTH_DELIMITED)
          ++ (serializeVarintBytes s.current_length ++ s.data.take s.current_length))⟩,
       s) := by
    rw [serialize_push_ok _ _ (by simp only [List.length_append, List.length_take]; omega)]
    simp
  by_cases hpos : 0 < s.current_length
  · simp [FieldState.serialize_with_id, e1, e2, e3, havail, hpos]
  · have h0 : s.current_length = 0 := by omega
    rw [h0] at e2
    simp [FieldState.serialize_with_id, e1, e2, havail, hpos, h0]

/-! ## Frame helper lemmas -/

theorem serialize_state_eq (s : FieldState) (wb : WriteBuffer) :
    (s.serialize wb).2.2 = s := by
  cases h : wb.push (s.data.take s.current_length) <;>
    simp [FieldState.serialize, h]

theorem serialize_with_id_state_eq (s : FieldState) (field_number : Nat)
    (wb : WriteBuffer) (opt : Bool) :
    (s.serialize_with_id field_number wb opt).2.2 = s := by
  simp only [FieldState.serialize_with_id]
  repeat' split
  all_goals first
  | rfl
  | exact serialize_state_eq s _

/-- The unchecked mutable accessor, written as a single conditional. -/
theorem get_eq (C : Nat) (s : FieldState) (index : Nat) :
    FieldState.get C s index =
      if s.current_length ≤ min index (C - 1) then
        (⟨min index (C - 1) + 1, s.data⟩, min index (C - 1))
      else
        (s, min index (C - 1)) := rfl

/-! ## Claim theorems -/

/-- C10: `serialize` and `serialize_with_id` never modify the field: after
either call, whatever it returns, the logical length and every stored
element (the whole `FieldState`) are exactly as they were before. -/
theorem serialize_does_not_modify_field (s : FieldState) (wb : WriteBuffer)
    (field_number : Nat) (opt : Bool) :
    (s.serialize wb).2.2 = s ∧
    (s.serialize_with_id field_number wb opt).2.2 = s :=
  ⟨serialize_state_eq s wb, serialize_with_id_state_eq s field_number wb opt⟩

/-- C4: whenever `serialize_with_id` decides to emit
(`current_length > 0` or `is_optional`), it compares the transport's
available size against `current_length` only; if the available size is
strictly smaller it returns `BUFFER_FULL` and writes nothing at all. -/
theorem serialize_with_id_payload_precheck (s : FieldState) (field_number : Nat)
    (wb : WriteBuffer) (opt : Bool)
    (hemit : 0 < s.current_length ∨ opt = true)
    (hfull : wb.get_available_size < s.current_length) :
    s.serialize_with_id field_number wb opt = (Error.BUFFER_FULL, wb, s) := by
  simp only [FieldState.serialize_with_id]
  rw [if_pos hemit, if_neg (by omega)]

theorem serialize_with_id_payload_precheck_witness :
    FieldState.serialize_with_id ⟨2, [5, 6]⟩ 1 ⟨1, []⟩ false =
      (Error.BUFFER_FULL, ⟨1, []⟩, ⟨2, [5, 6]⟩) :=
  serialize_with_id_payload_precheck ⟨2, [5, 6]⟩ 1 ⟨1, []⟩ false
    (Or.inl (by norm_num)) (by decide)

/-- C5: when the decoded length varint exceeds the capacity, `deserialize`
returns `ARRAY_FULL` and leaves the field (length and content) exactly as
it was; only the varint has been consumed from the input. -/
theorem deserialize_over_capacity (M : Nat) (s : FieldState) (rb rest : List Nat)
    (n : Nat) (hdec : deserializeVarintBytes rb = some (n, rest)) (hover : M < n) :
    s.deserialize M rb = (Error.ARRAY_FULL, s, rest) := by
  simp [FieldState.deserialize, deserializeVarint, hdec, show ¬n ≤ M by omega]

theorem deserialize_over_capacity_witness :
    FieldState.deserialize 2 ⟨1, [7, 7]⟩ [5, 9, 9, 9, 9, 9] =
      (Error.ARRAY_FULL, ⟨1, [7, 7]⟩, [9, 9, 9, 9, 9]) :=
  deserialize_over_capacity 2 ⟨1, [7, 7]⟩ _ _ 5 (by decide) (by norm_num)

/-- C7: `set(data, length)` with `length > capacity` returns `ARRAY_FULL`
and leaves the field unchanged; with `length ≤ capacity` it returns
success, sets the logical length, copies exactly `length` elements and
leaves storage positions at indices `≥ length` unmodified. -/
theorem set_spec (M : Nat) (s : FieldState) (src : List Nat) (len : Nat) :
    (M < len → FieldState.set M s src len = (Error.ARRAY_FULL, s)) ∧
    (len ≤ M →
      (FieldState.set M s src len).1 = Error.NO_ERRORS ∧
      (FieldState.set M s src len).2.current_length = len ∧
      (FieldState.set M s src len).2.data = src.take len ++ s.data.drop len) := by
  constructor
  · intro h
    simp [FieldState.set, memcpyList, show ¬M ≥ len by omega]
  · intro h
    simp [FieldState.set, memcpyList, show M ≥ len by omega]

theorem set_spec_witness :
    FieldState.set 2 ⟨1, [7, 8]⟩ [1, 2, 3] 3 = (Error.ARRAY_FULL, ⟨1, [7, 8]⟩) ∧
    (FieldState.set 2 ⟨1, [7, 8]⟩ [1, 2] 2).2.data = [1, 2] := by
  constructor
  · exact (set_spec 2 ⟨1, [7, 8]⟩ [1, 2, 3] 3).1 (by norm_num)
  · rw [((set_spec 2 ⟨1, [7, 8]⟩ [1, 2] 2).2 (by norm_num)).2.2]
    decide

/-- C8: the unchecked mutable accessor clamps the index to `capacity - 1`,
grows the logical length to the clamped index plus one exactly when the
clamped index is at or past the current length, and otherwise leaves the
state unchanged; on a freshly cleared field, calls at indices
`0, 1, 2, ...` yield `get_length() = index + 1` after each call. -/
theorem get_grow_spec (C : Nat) (hC : 0 < C) :
    (∀ (s : FieldState) (index : Nat),
      (FieldState.get C s index).2 = min index (C - 1) ∧
      (s.current_length ≤ min index (C - 1) →
        (FieldState.get C s index).1 = ⟨min index (C - 1) + 1, s.data⟩) ∧
      (min index (C - 1) < s.current_length →
        (FieldState.get C s index).1 = s)) ∧
    (∀ k, k < C → (getsUpTo C k).current_length = k + 1) := by
  constructor
  · intro s index
    rw [get_eq]
    by_cases h : s.current_length ≤ min index (C - 1)
    · rw [if_pos h]
      exact ⟨rfl, fun _ => rfl, fun hlt => absurd h (by omega)⟩
    · rw [if_neg h]
      exact ⟨rfl, fun hle => absurd hle h, fun _ => rfl⟩
  · intro k
    induction k with
    | zero =>
      intro hk
      show (FieldState.get C (freshField C) 0).1.current_length = 1
      rw [get_eq, if_pos (by simp [freshField])]
      simp
    | succ k ih =>
      intro hk
      have hlen := ih (by omega)
      show (FieldState.get C (getsUpTo C k) (k + 1)).1.current_length = k + 2
      rw [get_eq]
      have hmin : min (k + 1) (C - 1) = k + 1 := by omega
      rw [hmin, if_pos (by omega)]

theorem get_grow_spec_witness :
    (FieldState.get 5 ⟨0, [0, 0, 0, 0, 0]⟩ 2).1 = ⟨3, [0, 0, 0, 0, 0]⟩ ∧
    (getsUpTo 5 2).current_length = 3 := by
  have h := get_grow_spec 5 (by norm_num)
  refine ⟨?_, h.2 2 (by norm_num)⟩
  rw [(h.1 ⟨0, [0, 0, 0, 0, 0]⟩ 2).2.1 (by decide)]
  decide

/-- C3: `serialize_with_id` on a zero-length field with `is_optional = true`
writes exactly the tag varint for `(field_number, LENGTH_DELIMITED)`
followed by the varint encoding of `0` and no payload bytes (given room
for those varints); with `is_optional = false` it writes nothing and
returns success. -/
theorem serialize_with_id_empty_field (s : FieldState) (field_number : Nat)
    (wb : WriteBuffer) (h0 : s.current_length = 0) :
    (s.serialize_with_id field_number wb false = (Error.NO_ERRORS, wb, s)) ∧
    ((serializeVarintBytes (makeTag field_number WireType.LENGTH_DELIMITED)).length + 1 ≤
        wb.get_available_size →
      s.serialize_with_id field_number wb true =
        (Error.NO_ERRORS,
         ⟨wb.max_size,
          wb.bytes ++ serializeVarintBytes (makeTag field_number WireType.LENGTH_DELIMITED)
            ++ serializeVarintBytes 0⟩,
         s)) := by
  constructor
  · simp [FieldState.serialize_with_id, h0]
  · intro hroom
    have hone : (serializeVarintBytes 0).length = 1 := rfl
    have hr : (serializeVarintBytes (makeTag field_number WireType.LENGTH_DELIMITED)).length +
        (serializeVarintBytes s.current_length).length + s.current_length ≤
        wb.get_available_size := by
      rw [h0]
      omega
    rw [serialize_with_id_writes s field_number wb hr, h0]
    simp

theorem serialize_with_id_empty_field_witness :
    FieldState.serialize_with_id ⟨0, [0, 0]⟩ 1 ⟨10, []⟩ false =
      (Error.NO_ERRORS, ⟨10, []⟩, ⟨0, [0, 0]⟩) ∧
    FieldState.serialize_with_id ⟨0, [0, 0]⟩ 1 ⟨10, []⟩ true =
      (Error.NO_ERRORS, ⟨10, [10, 0]⟩, ⟨0, [0, 0]⟩) := by
  have h := serialize_with_id_empty_field ⟨0, [0, 0]⟩ 1 ⟨10, []⟩ rfl
  refine ⟨h.1, ?_⟩
  rw [h.2 (by decide)]
  decide

/-- C6: an input stream declaring a length `N ≤ capacity` but supplying
fewer payload bytes makes `deserialize` return `END_OF_BUFFER`, leaving
the field holding the partially read bytes with that partial logical
length (the prior content is not restored: it was cleared to zeros). -/
theorem deserialize_truncated (C : Nat) (s : FieldState) (N : Nat)
    (payload : List Nat) (hs : s.data.length = C) (hN : N ≤ C)
    (hK : payload.length < N) :
    s.deserialize C (serializeVarintBytes N ++ payload) =
      (Error.END_OF_BUFFER,
       ⟨payload.length, payload ++ List.replicate (C - payload.length) 0⟩, []) := by
  have hrl := readLoop_short N payload [] (List.replicate C 0)
    (by simp; omega) (by simp; omega)
  simp only [List.length_nil, List.nil_append, Nat.zero_add] at hrl
  simp [FieldState.deserialize, deserializeVarint, varint_roundtrip, hN,
    FieldState.clear, hs, hrl, show payload.length ≠ N by omega, List.drop_replicate]

theorem deserialize_truncated_witness :
    FieldState.deserialize 3 ⟨1, [7, 7, 7]⟩ [2, 9] =
      (Error.END_OF_BUFFER, ⟨1, [9, 0, 0]⟩, []) := by
  have h := deserialize_truncated 3 ⟨1, [7, 7, 7]⟩ 2 [9] rfl (by norm_num) (by norm_num)
  rw [show ([2, 9] : List Nat) = serializeVarintBytes 2 ++ [9] from rfl, h]
  decide

/-- C9: the `FieldString` c-string assignment: a null pointer clears the
field; a string of length `S` yields logical length `min S capacity`, the
copied characters, and a terminator byte right after them exactly when
`min S capacity < capacity`; when `S ≥ capacity` the whole storage is the
first `capacity` characters with no terminator. -/
theorem setCString_spec (M : Nat) (s : FieldState) (hs : s.data.length = M) :
    (FieldString.setCString M s none = ⟨0, List.replicate M 0⟩) ∧
    (∀ cs : List Nat,
      (FieldString.setCString M s (some cs)).current_length = min cs.length M ∧
      (cs.length < M →
        (FieldString.setCString M s (some cs)).data =
          cs ++ 0 :: s.data.drop (cs.length + 1)) ∧
      (M ≤ cs.length →
        (FieldString.setCString M s (some cs)).data = cs.take M)) := by
  constructor
  · simp [FieldString.setCString, FieldState.clear, hs]
  · intro cs
    refine ⟨rfl, ?_, ?_⟩
    · intro hlt
      simp only [FieldString.setCString, FieldState.set_length, strncpyList]
      rw [show min cs.length M = cs.length by omega]
      rw [if_pos (by omega)]
      rw [List.take_of_length_le (by omega)]
      rw [show cs.length + 1 - cs.length = 1 by omega]
      simp
    · intro hge
      simp only [FieldString.setCString, FieldState.set_length, strncpyList]
      rw [show min cs.length M = M by omega]
      rw [if_neg (by omega)]
      rw [show M - cs.length = 0 by omega]
      simp [List.drop_eq_nil_of_le (le_of_eq hs)]

theorem setCString_spec_witness :
    (FieldString.setCString 4 ⟨2, [7, 7, 7, 7]⟩ (some [97, 98, 99])).current_length = 3 ∧
    (FieldString.setCString 4 ⟨2, [7, 7, 7, 7]⟩ (some [97, 98, 99])).data = [97, 98, 99, 0] ∧
    (FieldString.setCString 3 ⟨2, [7, 7, 7]⟩ (some [97, 98, 99, 100])).data = [97, 98, 99] := by
  have h4 := (setCString_spec 4 ⟨2, [7, 7, 7, 7]⟩ rfl).2 [97, 98, 99]
  have h3 := (setCString_spec 3 ⟨2, [7, 7, 7]⟩ rfl).2 [97, 98, 99, 100]
  refine ⟨by rw [h4.1]; decide, by rw [h4.2.1 (by norm_num)]; decide,
    by rw [h3.2.2 (by norm_num)]; decide⟩

/-- C2: for every public operation, the logical length stays within
`[0, capacity]` and the storage keeps exactly `capacity` elements
(precondition: the source pointer passed to `set` is valid for `length`
reads, as C++ requires). -/
theorem invariant_preserved (M : Nat) (hM : 0 < M) (s : FieldState)
    (hinv : FieldInv M s) :
    (∀ index, FieldInv M (FieldState.get M s index).1) ∧
    (∀ src len, len ≤ src.length → FieldInv M (FieldState.set M s src len).2) ∧
    (∀ rhs : FieldState, rhs.current_length ≤ rhs.data.length →
      FieldInv M (FieldState.setField M s rhs).2) ∧
    (∀ len, FieldInv M (FieldState.set_length M s len)) ∧
    (∀ wb, FieldInv M (s.serialize wb).2.2) ∧
    (∀ field_number wb opt, FieldInv M (s.serialize_with_id field_number wb opt).2.2) ∧
    (∀ rb, FieldInv M (s.deserialize M rb).2.1) ∧
    (∀ rb wt, FieldInv M (s.deserialize_check_type M rb wt).2.1) ∧
    FieldInv M s.clear ∧
    (∀ str, FieldInv M (FieldString.setCString M s str)) := by
  obtain ⟨hlen, hdata⟩ := hinv
  have hclear : FieldInv M s.clear :=
    ⟨Nat.zero_le M, by simp [FieldState.clear, hdata]⟩
  have hset : ∀ (src : List Nat) (len : Nat), len ≤ src.length →
      FieldInv M (FieldState.set M s src len).2 := by
    intro src len hsrc
    unfold FieldState.set
    split
    · rename_i hfit
      refine ⟨hfit, ?_⟩
      simp [memcpyList, hdata]
      omega
    · exact ⟨hlen, hdata⟩
  have hdeser : ∀ rb, FieldInv M (s.deserialize M rb).2.1 := by
    intro rb
    have hrl := readLoop_preserves (deserializeVarint rb).2.1
      (deserializeVarint rb).2.2 s.clear
    have hclear_len : (FieldState.clear s).data.length = M := by
      simp [FieldState.clear, hdata]
    have hclear_cl : (FieldState.clear s).current_length = 0 := rfl
    simp only [FieldState.deserialize]
    split
    · split
      · rename_i hok hfit
        have hcl : (readLoop (deserializeVarint rb).2.1 (deserializeVarint rb).2.2
            s.clear).1.current_length ≤ M := by
          have h2 := hrl.2
          rw [hclear_cl] at h2
          simp only [Nat.max_eq_right (Nat.zero_le _)] at h2
          omega
        have hdl : (readLoop (deserializeVarint rb).2.1 (deserializeVarint rb).2.2
            s.clear).1.data.length = M := by
          rw [hrl.1, hclear_len]
        split
        · exact ⟨hcl, hdl⟩
        · exact ⟨hcl, hdl⟩
      · exact ⟨hlen, hdata⟩
    · exact ⟨hlen, hdata⟩
  refine ⟨?_, hset, ?_, ?_, ?_, ?_, hdeser, ?_, hclear, ?_⟩
  · intro index
    rw [get_eq]
    split
    · refine ⟨?_, hdata⟩
      show min index (M - 1) + 1 ≤ M
      omega
    · exact ⟨hlen, hdata⟩
  · intro rhs hr
    exact hset rhs.data rhs.current_length hr
  · intro len
    exact ⟨Nat.min_le_right len M, hdata⟩
  · intro wb
    rw [serialize_state_eq]
    exact ⟨hlen, hdata⟩
  · intro field_number wb opt
    rw [serialize_with_id_state_eq]
    exact ⟨hlen, hdata⟩
  · intro rb wt
    simp only [FieldState.deserialize_check_type]
    split
    · exact hdeser rb
    · exact ⟨hlen, hdata⟩
  · intro str
    cases str with
    | none => exact hclear
    | some cs =>
      simp only [FieldString.setCString, FieldState.set_length, strncpyList]
      constructor
      · show min cs.length M ≤ M
        omega
      · simp only [List.length_append, List.length_take, List.length_replicate,
          List.length_drop, hdata]
        split <;> omega

theorem invariant_preserved_witness :
    FieldInv 2 (FieldState.get 2 ⟨1, [3, 4]⟩ 5).1 ∧
    FieldInv 2 (FieldState.clear ⟨1, [3, 4]⟩) ∧
    FieldInv 2 (FieldState.deserialize 2 ⟨1, [3, 4]⟩ [2, 8, 9]).2.1 :=
  ⟨(invariant_preserved 2 (by norm_num) ⟨1, [3, 4]⟩ ⟨by norm_num, rfl⟩).1 5,
   (invariant_preserved 2 (by norm_num) ⟨1, [3, 4]⟩ ⟨by norm_num, rfl⟩).2.2.2.2.2.2.2.2.1,
   (invariant_preserved 2 (by norm_num) ⟨1, [3, 4]⟩ ⟨by norm_num, rfl⟩).2.2.2.2.2.2.1 [2, 8, 9]⟩

/-- C1 as stated is false: after `serialize_with_id` the transport's bytes
begin with the tag varint, which `deserialize_check_type` (which reads a
length varint first) would misread as the length.  Concretely with
capacity 10, payload `[1, 2, 3]`, field number 1: the transport holds
`[10, 3, 1, 2, 3]`, the tag byte 10 is decoded as the length, and the
round trip ends in `END_OF_BUFFER` with length 4, not 3. -/
theorem roundtrip_with_tag_counterexample :
    (FieldState.set 10 (freshField 10) [1, 2, 3] 3).1 = Error.NO_ERRORS ∧
    ((FieldState.set 10 (freshField 10) [1, 2, 3] 3).2.serialize_with_id 1
        ⟨20, []⟩ true).1 = Error.NO_ERRORS ∧
    ((FieldState.set 10 (freshField 10) [1, 2, 3] 3).2.serialize_with_id 1
        ⟨20, []⟩ true).2.1.bytes = [10, 3, 1, 2, 3] ∧
    (FieldState.deserialize_check_type 10 (freshField 10)
        ((FieldState.set 10 (freshField 10) [1, 2, 3] 3).2.serialize_with_id 1
          ⟨20, []⟩ true).2.1.bytes
        WireType.LENGTH_DELIMITED).1 = Error.END_OF_BUFFER ∧
    (FieldState.deserialize_check_type 10 (freshField 10)
        ((FieldState.set 10 (freshField 10) [1, 2, 3] 3).2.serialize_with_id 1
          ⟨20, []⟩ true).2.1.bytes
        WireType.LENGTH_DELIMITED).2.1.current_length ≠ 3 := by decide

/-- C1 (amended): `set(payload, L)` then `serialize_with_id` (with
`is_optional = true`, into an empty transport with room for the tag and
length varints plus the payload) then `deserialize_check_type` with wire
type `LENGTH_DELIMITED` on a fresh field of the same capacity — applied to
the transport's bytes after the leading tag varint, which the containing
message consumes to select the field — reproduces the original logical
length `L` and the same `L` payload bytes exactly. -/
theorem roundtrip_after_tag (C L : Nat) (payload : List Nat)
    (field_number wbmax : Nat) (hL : L ≤ C) (hp : payload.length = L)
    (hroom : (serializeVarintBytes (makeTag field_number WireType.LENGTH_DELIMITED)).length +
        (serializeVarintBytes L).length + L ≤ wbmax) :
    (FieldState.set C (freshField C) payload L).1 = Error.NO_ERRORS ∧
    ((FieldState.set C (freshField C) payload L).2.serialize_with_id field_number
        ⟨wbmax, []⟩ true).1 = Error.NO_ERRORS ∧
    FieldState.deserialize_check_type C (freshField C)
        ((((FieldState.set C (freshField C) payload L).2.serialize_with_id field_number
            ⟨wbmax, []⟩ true).2.1.bytes).drop
          (serializeVarintBytes (makeTag field_number WireType.LENGTH_DELIMITED)).length)
        WireType.LENGTH_DELIMITED =
      (Error.NO_ERRORS, ⟨L, payload ++ List.replicate (C - L) 0⟩, []) ∧
    (payload ++ List.replicate (C - L) 0).take L = payload := by
  have htakeL : (payload ++ List.replicate (C - L) 0).take L = payload := by
    rw [← hp, List.take_left]
  have hsetres : FieldState.set C (freshField C) payload L =
      (Error.NO_ERRORS, ⟨L, payload ++ List.replicate (C - L) 0⟩) := by
    simp only [FieldState.set, freshField, memcpyList]
    rw [if_pos (by omega), List.take_of_length_le (le_of_eq hp), List.drop_replicate]
  have hser := serialize_with_id_writes ⟨L, payload ++ List.replicate (C - L) 0⟩
    field_number ⟨wbmax, []⟩
    (by simp only [WriteBuffer.get_available_size, List.length_nil, Nat.sub_zero]
        exact hroom)
  simp only [List.nil_append] at hser
  rw [htakeL] at hser
  have hdrop : ((serializeVarintBytes (makeTag field_number WireType.LENGTH_DELIMITED) ++
        serializeVarintBytes L) ++ payload).drop
      (serializeVarintBytes (makeTag field_number WireType.LENGTH_DELIMITED)).length =
      serializeVarintBytes L ++ payload := by
    rw [List.append_assoc, List.drop_left]
  have hrl := readLoop_run L payload [] [] (List.replicate C 0)
    (by simp; omega) (by simp [hp])
  simp only [List.append_nil, List.nil_append, List.length_nil, Nat.zero_add] at hrl
  rw [hp, List.drop_replicate] at hrl
  refine ⟨by rw [hsetres], ?_, ?_, htakeL⟩
  · rw [hsetres]
    show ((⟨L, payload ++ List.replicate (C - L) 0⟩ : FieldState).serialize_with_id
      field_number ⟨wbmax, []⟩ true).1 = Error.NO_ERRORS
    rw [hser]
  · rw [hsetres]
    show FieldState.deserialize_check_type C (freshField C)
        ((((⟨L, payload ++ List.replicate (C - L) 0⟩ : FieldState).serialize_with_id
            field_number ⟨wbmax, []⟩ true).2.1.bytes).drop
          (serializeVarintBytes (makeTag field_number WireType.LENGTH_DELIMITED)).length)
        WireType.LENGTH_DELIMITED =
      (Error.NO_ERRORS, ⟨L, payload ++ List.replicate (C - L) 0⟩, [])
    rw [hser]
    simp only
    rw [hdrop]
    simp [FieldState.deserialize_check_type, FieldState.deserialize, deserializeVarint,
      varint_roundtrip, FieldState.clear, freshField, List.length_replicate, hrl, hL]

theorem roundtrip_after_tag_witness :
    FieldState.deserialize_check_type 10 (freshField 10)
        ((((FieldState.set 10 (freshField 10) [1, 2, 3] 3).2.serialize_with_id 1
            ⟨20, []⟩ true).2.1.bytes).drop
          (serializeVarintBytes (makeTag 1 WireType.LENGTH_DELIMITED)).length)
        WireType.LENGTH_DELIMITED =
      (Error.NO_ERRORS, ⟨3, [1, 2, 3, 0, 0, 0, 0, 0, 0, 0]⟩, []) := by
  have h := (roundtrip_after_tag 10 3 [1, 2, 3] 1 20 (by norm_num) (by norm_num)
    (by decide)).2.2.1
  rw [h]
  decide
